import Mathlib

/-!
# Verification of the pop-os packaging CI orchestrator

Shallow embedding of the build-pipeline core of the repository
(`src/main.rs`, `src/blacklist.rs`, `src/collate.rs`, `src/dpkg.rs`,
`src/fetcher.rs`) and proofs about it.

String manipulation from the Rust code (`split`, `trim`, `lines`,
`split_whitespace`, `replace`) is modelled over `List Char` with
structurally recursive functions, so that every definition evaluates
inside the kernel.  Rust byte indices coincide with character indices on
the ASCII inputs these functions receive.
-/

/- ## Generic string helpers (models of the Rust std string functions) -/

/-- Model of Rust `str::split(c)`: splits at every occurrence of `c`,
keeping empty pieces; always returns at least one piece. -/
def split_char (c : Char) : List Char → List (List Char)
  | [] => [[]]
  | x :: xs =>
    if x = c then [] :: split_char c xs
    else
      match split_char c xs with
      | [] => [[x]]
      | y :: ys => (x :: y) :: ys

/-- Model of Rust `str::trim` on character lists (whitespace from both ends). -/
def trim_chars (l : List Char) : List Char :=
  ((l.dropWhile Char.isWhitespace).reverse.dropWhile Char.isWhitespace).reverse

/-- Helper of `rust_lines`: Rust `str::lines` strips one trailing `\r` per line. -/
def strip_cr (l : List Char) : List Char :=
  if l.getLast? = some '\r' then l.dropLast else l

/-- Model of Rust `str::lines`: split at `'\n'`, a final line ending is
optional, a trailing `'\r'` is removed from each line. -/
def rust_lines (l : List Char) : List (List Char) :=
  if l = [] then []
  else
    let ps := split_char '\n' l
    let ps := if ps.getLast? = some [] then ps.dropLast else ps
    ps.map strip_cr

/-- Accumulator pass of `split_ws`; `cur` holds the current word reversed. -/
def split_ws_aux : List Char → List Char → List (List Char)
  | [], cur => if cur = [] then [] else [cur.reverse]
  | c :: rest, cur =>
    if c.isWhitespace then
      if cur = [] then split_ws_aux rest []
      else cur.reverse :: split_ws_aux rest []
    else split_ws_aux rest (c :: cur)

/-- Model of Rust `str::split_whitespace`: words separated by runs of
whitespace, no empty words. -/
def split_ws (l : List Char) : List (List Char) :=
  split_ws_aux l []

/-- First-element lookup in an association list, the access pattern of the
Rust `HashMap`s in this code (keys are unique there, so first match is the
match). -/
def alookup {α : Type} (k : String) : List (String × α) → Option α
  | [] => none
  | (k', v) :: rest => if k' = k then some v else alookup k rest

/- ## C1 — blacklist consultation in `process_repo` (src/main.rs 143-163) -/

/-- A `(series, pocket, commit)` build cell as iterated by `process_repo`. -/
structure Cell where
  series : String
  pocket : String
  gitId : String
deriving DecidableEq, Repr

/-- Observable per-cell events of `process_repo`'s loop body. -/
inductive CellEvent
  | logSkip (c : Cell)
  | sourceBuild (c : Cell)
deriving DecidableEq, Repr

/-- The cell loop of `process_repo` (src/main.rs 143-163): the blacklist
membership test compares `(git_tar.id, pocket)` against the loaded entries
and, on a match, only emits the "skipping because it is blacklisted" log
line — the body then falls through to `dpkg.source()` unconditionally
(there is no `continue`). -/
def process_cells (blacklisted : List (String × String)) (cells : List Cell) :
    List CellEvent :=
  cells.flatMap fun c =>
    (if (c.gitId, c.pocket) ∈ blacklisted then [CellEvent.logSkip c] else [])
      ++ [CellEvent.sourceBuild c]

/-- C1: the claim says a build cell matching a blacklist entry is skipped
(the Source Builder is not invoked).  The code instead logs the skip message
and still invokes the source build: for the cell
(series `focal`, pocket `master`, commit `aaa`) with blacklist entry
`("aaa", "master")` — the entry the membership test actually matches —
the event trace contains both the log line and the source build. -/
theorem process_repo_blacklisted_cell_still_built :
    process_cells [("aaa", "master")] [⟨"focal", "master", "aaa"⟩] =
      [CellEvent.logSkip ⟨"focal", "master", "aaa"⟩,
       CellEvent.sourceBuild ⟨"focal", "master", "aaa"⟩] := by
  decide

/- ## C2 — the Publisher is never run (src/main.rs 125-128, src/lib.rs 16) -/

/-- Top-level steps of `main_` (src/main.rs 45-129), in program order:
startup (schroot session cleanup and blacklist load), the per-organization
fetch/process loop, and the blacklist writer drained by `join!`.  The apt
publisher module is commented out of the crate (`// pub mod apt;`,
src/lib.rs 16) and `apt::create_dist` has no caller. -/
inductive MainStep
  | cleanupSchrootSessions
  | loadBlacklist
  | fetchOrganization (org : String)
  | processOrgRepositories (org : String)
  | runBlacklistWriter
  | publishPocket (pocket : String)
deriving DecidableEq, Repr

/-- Recognizes a publisher step. -/
def is_publish_step : MainStep → Bool
  | MainStep.publishPocket _ => true
  | _ => false

/-- The step trace of `main_` for a given organization list
(src/main.rs 45-129): no publisher step is ever emitted. -/
def main_steps (orgs : List String) : List MainStep :=
  [MainStep.cleanupSchrootSessions, MainStep.loadBlacklist]
    ++ (orgs.flatMap fun o =>
        [MainStep.fetchOrganization o, MainStep.processOrgRepositories o])
    ++ [MainStep.runBlacklistWriter]

/-- C2 counterexample: the claim says that after all organizations complete
the Publisher runs once per pocket.  For the concrete run over the single
organization `pop-os`, the step trace of `main_` contains zero publisher
steps. -/
theorem main_steps_publisher_absent_concrete :
    (main_steps ["pop-os"]).countP is_publish_step = 0 := by
  decide

/-- C2 amended: `main_` never runs the Publisher for any organization list —
the apt module is commented out of the crate and `create_dist` is never
invoked; the process ends after the fetch loop and blacklist writer finish. -/
theorem main_steps_never_publish (orgs : List String) :
    (main_steps orgs).countP is_publish_step = 0 := by
  induction orgs with
  | nil => decide
  | cons o rest ih =>
    simp only [main_steps, List.flatMap_cons, List.countP_append,
      List.countP_cons, List.cons_append] at ih ⊢
    simpa [is_publish_step, List.countP_cons] using ih

/- ## C4 — exit status of `main` (src/main.rs 200-209) -/

/-- Result of `main_` as observed by `main`. -/
inductive MainOutcome
  | ok
  | err (message : String)

/-- The body of `main` (src/main.rs 200-209): a fatal error from `main_` is
only formatted and logged (`format_error`), after which `main` returns unit.
The model yields the process exit code and whether the error chain was
logged. -/
def main_exit : MainOutcome → Nat × Bool
  | MainOutcome.ok => (0, false)
  | MainOutcome.err _ => (0, true)

/-- C4 counterexample: the claim says the process exits non-zero on a fatal
configuration failure.  When `main_` fails with the configuration error,
`main` logs it and still exits with code 0. -/
theorem main_exit_zero_on_config_error :
    main_exit (MainOutcome.err "configuration error") = (0, true) := by
  decide

/-- C4 amended: the process exits with code 0 in every case — success,
partial success, and fatal errors from `main_` alike; a fatal error is
logged with its cause chain but never escalated into a non-zero exit. -/
theorem main_exit_always_zero (o : MainOutcome) :
    (main_exit o).1 = 0 ∧ ((main_exit o).2 = true ↔ ∃ m, o = MainOutcome.err m) := by
  cases o with
  | ok => exact ⟨rfl, by simp [main_exit]⟩
  | err m => exact ⟨rfl, by simp [main_exit]⟩

/- ## C9 — no global mutex around debuild (src/dpkg.rs 404-450) -/

/-- The step skeleton of `Dpkg::source` (src/dpkg.rs 258-433).  The Python
original guarded the source build with `with debuild_lock:`; in this code
that guard survives only as a comment (src/dpkg.rs 404) and `debuild` is
invoked directly, with no lock step of any kind. -/
inductive SrcStep
  | removeExtractDir
  | createExtractDir
  | extractTar
  | checkDebianDir
  | readControl
  | readChangelogVersion
  | appendChangelog
  | quiltPush
  | fakerootRulesClean
  | acquireDebuildLock
  | runDebuild
  | releaseDebuildLock
  | verifyOutputs
deriving DecidableEq, Repr

/-- Steps performed by one `Dpkg::source` call, by the flags it branches on:
whether the extraction directory pre-exists, whether the repo is `linux`,
whether `debian/patches` exists, and whether the `.dsc`/`.tar.xz` pair is
already present (the idempotence cache). -/
def source_steps (extractDirExists isLinux hasPatches cached : Bool) :
    List SrcStep :=
  (if extractDirExists then [SrcStep.removeExtractDir] else [])
    ++ [SrcStep.createExtractDir, SrcStep.extractTar, SrcStep.checkDebianDir,
        SrcStep.readControl, SrcStep.readChangelogVersion]
    ++ (if cached then []
        else
          [SrcStep.appendChangelog]
            ++ (if hasPatches then [SrcStep.quiltPush] else [])
            ++ (if isLinux then [SrcStep.fakerootRulesClean] else [])
            ++ [SrcStep.runDebuild])
    ++ [SrcStep.verifyOutputs]

/-- C9: the claim says all debuild invocations are serialized by a single
global mutex.  In the code no lock is ever acquired on the way to the
debuild invocation — every uncached `Dpkg::source` run reaches `runDebuild`
without any `acquireDebuildLock` step, so two concurrently processed build
cells can have debuild processes in flight simultaneously. -/
theorem dpkg_source_no_debuild_lock :
    ∀ e l p c : Bool,
      SrcStep.acquireDebuildLock ∉ source_steps e l p c ∧
        SrcStep.runDebuild ∈ source_steps e l p false := by
  decide

/- ## C6 — version composition and path version (src/dpkg.rs 298-321) -/

/-- The version composed by `Dpkg::source` (src/dpkg.rs 308-314):
`[changelog_version, timestamp, release, sha[..7]].join("~")`.  The commit
id is a 40-character hex sha, so the Rust byte slice `[..7]` is the first
seven characters (it panics for shorter ids — hence the length hypothesis
in the theorem below). -/
def compose_version (changelogVersion timestamp seriesRelease gitId : String) :
    String :=
  changelogVersion ++ "~" ++ timestamp ++ "~" ++ seriesRelease ++ "~"
    ++ (gitId.toList.take 7).asString

/-- The path version of `Dpkg::source` (src/dpkg.rs 320):
`version.split(':').last()` — `split` always yields at least one piece, so
`last()` never fails. -/
def path_version (version : String) : String :=
  ((split_char ':' version.toList).getLastD []).asString

/-- `split_char` always returns at least one piece. -/
theorem split_char_ne_nil (c : Char) (l : List Char) : split_char c l ≠ [] := by
  induction l with
  | nil => simp [split_char]
  | cons x xs ih =>
    by_cases hx : x = c
    · simp [split_char, hx]
    · simp only [split_char, if_neg hx]
      cases h : split_char c xs with
      | nil => exact absurd h ih
      | cons y ys => simp

/-- A one-piece split means the separator does not occur. -/
theorem split_char_single_not_mem (c : Char) :
    ∀ (xs y : List Char), split_char c xs = [y] → c ∉ xs := by
  intro xs
  induction xs with
  | nil => intro y _; simp
  | cons x t ih =>
    intro y h
    by_cases hx : x = c
    · rw [split_char, if_pos hx] at h
      cases ht : split_char c t with
      | nil => exact absurd ht (split_char_ne_nil c t)
      | cons z zs => rw [ht] at h; simp at h
    · rw [split_char, if_neg hx] at h
      cases ht : split_char c t with
      | nil => exact absurd ht (split_char_ne_nil c t)
      | cons z zs =>
        rw [ht] at h
        simp only [List.cons.injEq] at h
        obtain ⟨hy, hzs⟩ := h
        subst hzs
        have hmem := ih z ht
        simp only [List.mem_cons, not_or]
        exact ⟨Ne.symm hx, hmem⟩

/-- When the separator does not occur, `split_char` returns the whole list. -/
theorem split_char_eq_of_not_mem (c : Char) (xs : List Char) (h : c ∉ xs) :
    split_char c xs = [xs] := by
  induction xs with
  | nil => rfl
  | cons x t ih =>
    simp only [List.mem_cons, not_or] at h
    rw [split_char, if_neg (fun he => h.1 he.symm), ih h.2]

/-- The last piece of `split_char c l` is the suffix of `l` after the last
occurrence of `c`: it is `c`-free, is preceded by `c` when `c` occurs, and
is all of `l` otherwise. -/
theorem split_char_getLastD_spec (c : Char) (l : List Char) :
    c ∉ (split_char c l).getLastD [] ∧
      (c ∈ l → ∃ pre, l = pre ++ c :: (split_char c l).getLastD []) ∧
      (c ∉ l → (split_char c l).getLastD [] = l) := by
  induction l with
  | nil => simp [split_char]
  | cons x xs ih =>
    obtain ⟨ih1, ih2, ih3⟩ := ih
    by_cases hx : x = c
    · subst hx
      rw [split_char, if_pos rfl]
      rw [List.getLastD_cons]
      have hlast : (split_char x xs).getLastD [] = (split_char x xs).getLastD ([] : List Char) := rfl
      refine ⟨ih1, fun _ => ?_, fun habs => absurd (List.mem_cons_self x xs) habs⟩
      by_cases hmem : x ∈ xs
      · obtain ⟨pre, hpre⟩ := ih2 hmem
        exact ⟨x :: pre, by rw [List.cons_append, ← hpre]⟩
      · exact ⟨[], by rw [List.nil_append, ih3 hmem]⟩
    · rw [split_char, if_neg hx]
      cases ht : split_char c xs with
      | nil => exact absurd ht (split_char_ne_nil c xs)
      | cons y ys =>
        cases ys with
        | nil =>
          have hnm : c ∉ xs := split_char_single_not_mem c xs y ht
          have hy : y = xs := by
            have := ih3 hnm
            rw [ht] at this
            simpa using this
          subst hy
          simp only [List.getLastD_cons, List.getLastD_nil]
          refine ⟨?_, ?_, fun _ => by trivial⟩
          · simp only [List.mem_cons, not_or]
            exact ⟨Ne.symm hx, hnm⟩
          intro hmem
          simp only [List.mem_cons] at hmem
          rcases hmem with h1 | h2
          · exact absurd h1.symm hx
          · exact absurd h2 hnm
        | cons z zs =>
          have hmem : c ∈ xs := by
            by_contra hnm
            have h1 := split_char_eq_of_not_mem c xs hnm
            rw [ht] at h1
            simp at h1
          have hlast1 : ((x :: y) :: z :: zs).getLastD ([] : List Char)
              = (z :: zs).getLastD (x :: y) := List.getLastD_cons _ _ _
          have hlast2 : (y :: z :: zs).getLastD ([] : List Char)
              = (z :: zs).getLastD y := List.getLastD_cons _ _ _
          have hlast3 : (z :: zs).getLastD (x :: y) = (z :: zs).getLastD y := by
            rw [List.getLastD_eq_getLast?, List.getLastD_eq_getLast?]
            cases hq : (z :: zs).getLast? with
            | none => simp [List.getLast?] at hq
            | some w => simp
          rw [ht] at ih1 ih2
          rw [hlast2] at ih1 ih2
          rw [hlast1, hlast3]
          refine ⟨ih1, fun _ => ?_, fun habs => ?_⟩
          · obtain ⟨pre, hpre⟩ := ih2 hmem
            exact ⟨x :: pre, by rw [List.cons_append, ← hpre]⟩
          · exact absurd hmem (fun h => habs (List.mem_cons_of_mem x h))

/-- `asString` inverts `toList`. -/
theorem asString_toList (s : String) : s.toList.asString = s := by
  cases s
  rfl

/-- `path_version` is the suffix of the version after its last `':'`
(the whole version when no `':'` occurs). -/
theorem path_version_after_last_colon (v : String) :
    (':' ∉ v.toList → path_version v = v) ∧
      (':' ∈ v.toList →
        ':' ∉ (path_version v).toList ∧
          ∃ pre, v.toList = pre ++ ':' :: (path_version v).toList) := by
  obtain ⟨h1, h2, h3⟩ := split_char_getLastD_spec ':' v.toList
  constructor
  · intro hn
    unfold path_version
    rw [h3 hn]
    exact asString_toList v
  · intro hm
    constructor
    · unfold path_version
      simpa using h1
    · obtain ⟨pre, hpre⟩ := h2 hm
      exact ⟨pre, by unfold path_version; simpa using hpre⟩

/-- C6: the composed version is
`<changelog_version>~<timestamp>~<release>~<sha7>` — so for a non-empty
changelog version the `~<timestamp>~<release>~<sha7>` tail is a proper
suffix — and the path version is the suffix after the last `':'` of the
composed version, the whole version when it has no `':'`.  The commit id is
required to have at least 7 characters (the Rust slice `[..7]` panics
otherwise), which makes the sha component exactly 7 characters long. -/
theorem source_version_composition (clv ts rel id : String)
    (hclv : clv ≠ "") (hid : 7 ≤ id.toList.length) :
    (∃ pre, pre ≠ "" ∧
        compose_version clv ts rel id =
          pre ++ ("~" ++ ts ++ "~" ++ rel ++ "~" ++ (id.toList.take 7).asString)) ∧
      (id.toList.take 7).length = 7 ∧
      (':' ∉ (compose_version clv ts rel id).toList →
        path_version (compose_version clv ts rel id) = compose_version clv ts rel id) ∧
      (':' ∈ (compose_version clv ts rel id).toList →
        ':' ∉ (path_version (compose_version clv ts rel id)).toList ∧
          ∃ pre, (compose_version clv ts rel id).toList =
            pre ++ ':' :: (path_version (compose_version clv ts rel id)).toList) := by
  refine ⟨⟨clv, hclv, ?_⟩, ?_, (path_version_after_last_colon _).1,
    (path_version_after_last_colon _).2⟩
  · simp only [compose_version, String.append_assoc]
  · rw [List.length_take]
    omega

/-- C6 witness: the theorem instantiated at the epoch-carrying changelog
version `1:2.3`, timestamp `1600000000`, series release `20.04`, and a
16-character commit id. -/
theorem source_version_composition_witness :
    (("1:2.3" : String) ≠ "" ∧ 7 ≤ "0123456789abcdef".toList.length) ∧
      ((∃ pre, pre ≠ "" ∧
          compose_version "1:2.3" "1600000000" "20.04" "0123456789abcdef" =
            pre ++ ("~" ++ "1600000000" ++ "~" ++ "20.04" ++ "~"
              ++ ("0123456789abcdef".toList.take 7).asString)) ∧
        ("0123456789abcdef".toList.take 7).length = 7 ∧
        (':' ∉ (compose_version "1:2.3" "1600000000" "20.04" "0123456789abcdef").toList →
          path_version (compose_version "1:2.3" "1600000000" "20.04" "0123456789abcdef")
            = compose_version "1:2.3" "1600000000" "20.04" "0123456789abcdef") ∧
        (':' ∈ (compose_version "1:2.3" "1600000000" "20.04" "0123456789abcdef").toList →
          ':' ∉ (path_version (compose_version "1:2.3" "1600000000" "20.04" "0123456789abcdef")).toList ∧
            ∃ pre, (compose_version "1:2.3" "1600000000" "20.04" "0123456789abcdef").toList =
              pre ++ ':' :: (path_version (compose_version "1:2.3" "1600000000" "20.04" "0123456789abcdef")).toList)) :=
  ⟨⟨by decide, by decide⟩,
    source_version_composition "1:2.3" "1600000000" "20.04" "0123456789abcdef"
      (by decide) (by decide)⟩

/- ## C3 — the Collator grid (src/collate.rs 51-75) -/

/-- A branch entering the collator: its name and the commit sha identifying
its `GitTar` (archives are content-addressed by sha, `<sha>.tar`). -/
structure CBranch where
  name : String
  sha : String
deriving DecidableEq, Repr

/-- `parse_branch` (src/collate.rs 71-75): the pocket is the piece before
the first `'_'`, the codename the piece after it, when present. -/
def parse_branch (name : String) : String × Option String :=
  match split_char '_' name.toList with
  | [] => (name, none)
  | [p] => (p.asString, none)
  | p :: s :: _ => (p.asString, some s.asString)

/-- Model of `HashMap::insert` on an association list: overwrite the
binding when the key is present, append it otherwise. -/
def assoc_insert {α : Type} (k : String) (v : α) :
    List (String × α) → List (String × α)
  | [] => [(k, v)]
  | (k', v') :: rest =>
    if k' = k then (k, v) :: rest else (k', v') :: assoc_insert k v rest

/-- Model of `HashMap::entry(k).or_insert_with(v)`: insert only when the
key is absent. -/
def assoc_insert_if_absent {α : Type} (k : String) (v : α)
    (l : List (String × α)) : List (String × α) :=
  match alookup k l with
  | some _ => l
  | none => l ++ [(k, v)]

/-- A series' pocket map: pocket name → commit sha of its `GitTar`. -/
abbrev Pockets := List (String × String)

/-- The build queue grid: series codename → pocket map. -/
abbrev Grid := List (String × Pockets)

/-- One collation step of `build_queue` (src/collate.rs 51-66): a branch
with a series suffix updates only that series (`entry(..).and_modify`, a
plain overwrite inside); a branch without one is offered to every series'
pocket map, inserted only where the pocket is absent. -/
def collate_step (grid : Grid) (b : CBranch) : Grid :=
  match parse_branch b.name with
  | (pocket, some codename) =>
    grid.map fun e =>
      if e.1 = codename then (e.1, assoc_insert pocket b.sha e.2) else e
  | (pocket, none) =>
    grid.map fun e => (e.1, assoc_insert_if_absent pocket b.sha e.2)

/-- `collate::build_queue` (src/collate.rs 8-69): the grid starts with an
empty pocket map per configured series and folds the branches in arrival
order (the `FuturesUnordered` stream delivers them in an arbitrary order,
so the theorems below quantify over every order). -/
def build_queue (series : List String) (branches : List CBranch) : Grid :=
  branches.foldl collate_step (series.map fun s => (s, []))

/-- Look a cell up in the grid. -/
def grid_lookup (grid : Grid) (s p : String) : Option String :=
  (alookup s grid).bind (alookup p)

/-- The branch populating pocket `p` of series `s` by the prefixed rule. -/
def pref_pred (s p : String) (b : CBranch) : Bool :=
  decide (parse_branch b.name = (p, some s))

/-- The branch populating pocket `p` by the wildcard rule. -/
def wild_pred (p : String) (b : CBranch) : Bool :=
  decide (parse_branch b.name = (p, none))

/-- The intended content of cell `(s, p)` for an arbitrary arrival order:
the last prefixed branch for `(s, p)` wins; otherwise the first wildcard
branch for `p`. -/
def cell_spec (branches : List CBranch) (s p : String) : Option String :=
  match (branches.filter (pref_pred s p)).getLast? with
  | some b => some b.sha
  | none => (branches.find? (wild_pred p)).map CBranch.sha

/-- Unfolding equation of `alookup` on the empty list. -/
theorem alookup_nil {α : Type} (k : String) :
    alookup k ([] : List (String × α)) = none := rfl

/-- Unfolding equation of `alookup` on a cons cell. -/
theorem alookup_cons {α : Type} (k k' : String) (v : α)
    (rest : List (String × α)) :
    alookup k ((k', v) :: rest) = if k' = k then some v else alookup k rest := rfl

/-- `alookup` through a map that rewrites the bindings of one key. -/
theorem alookup_map_modify {α : Type} (g : List (String × α)) (c s : String)
    (f : α → α) :
    alookup s (g.map fun e => if e.1 = c then (e.1, f e.2) else e) =
      if s = c then (alookup s g).map f else alookup s g := by
  induction g with
  | nil => by_cases h : s = c <;> simp [alookup, h]
  | cons e rest ih =>
    obtain ⟨k, v⟩ := e
    by_cases hkc : k = c
    · by_cases hks : k = s
      · have hsc : s = c := by rw [← hks]; exact hkc
        simp [alookup_cons, hkc, hks, hsc]
      · have hcs : ¬c = s := hkc ▸ hks
        simp [alookup_cons, hkc, hks, hcs, fun h : s = c => hcs h.symm, ih]
    · by_cases hks : k = s
      · have hsc : ¬s = c := fun h => hkc (hks.trans h)
        simp [alookup_cons, hkc, hks, hsc]
      · simp [alookup_cons, hkc, hks, ih]

/-- `alookup` through a map that rewrites every binding. -/
theorem alookup_map_all {α : Type} (g : List (String × α)) (s : String)
    (f : α → α) :
    alookup s (g.map fun e => (e.1, f e.2)) = (alookup s g).map f := by
  induction g with
  | nil => simp [alookup]
  | cons e rest ih =>
    obtain ⟨k, v⟩ := e
    by_cases hk : k = s <;> simp_all [alookup]

/-- `alookup` after an overwrite-insert. -/
theorem alookup_assoc_insert {α : Type} (l : List (String × α)) (k p : String)
    (v : α) :
    alookup p (assoc_insert k v l) = if p = k then some v else alookup p l := by
  induction l with
  | nil =>
    by_cases h : p = k
    · simp [assoc_insert, alookup, h]
    · simp [assoc_insert, alookup, h, Ne.symm h]
  | cons e rest ih =>
    obtain ⟨k', v'⟩ := e
    by_cases h1 : k' = k <;> by_cases h2 : k' = p <;> by_cases h3 : p = k <;>
      simp_all [assoc_insert, alookup]

/-- `alookup` over an appended singleton. -/
theorem alookup_append_single {α : Type} (l : List (String × α)) (k p : String)
    (v : α) :
    alookup p (l ++ [(k, v)]) =
      match alookup p l with
      | some w => some w
      | none => if k = p then some v else none := by
  induction l with
  | nil => simp [alookup]
  | cons e rest ih =>
    obtain ⟨k', v'⟩ := e
    by_cases h : k' = p <;> simp_all [alookup]

/-- `alookup` after a conditional insert. -/
theorem alookup_insert_if_absent {α : Type} (l : List (String × α)) (k p : String)
    (v : α) :
    alookup p (assoc_insert_if_absent k v l) =
      if p = k then some ((alookup k l).getD v) else alookup p l := by
  unfold assoc_insert_if_absent
  cases hl : alookup k l with
  | some w =>
    by_cases h : p = k
    · subst h
      simp [hl]
    · rw [if_neg h]
  | none =>
    rw [alookup_append_single]
    by_cases h : p = k
    · subst h
      simp [hl]
    · rw [if_neg h]
      cases hpl : alookup p l with
      | some w => rfl
      | none => exact if_neg (fun he : k = p => h he.symm)

/-- A per-key rewrite keeps the key column. -/
theorem map_fst_modify {α : Type} (g : List (String × α)) (c : String)
    (f : α → α) :
    (g.map fun e => if e.1 = c then (e.1, f e.2) else e).map Prod.fst =
      g.map Prod.fst := by
  induction g with
  | nil => rfl
  | cons e rest ih =>
    obtain ⟨k, v⟩ := e
    by_cases h : k = c <;> simp_all

/-- An all-values rewrite keeps the key column. -/
theorem map_fst_all {α : Type} (g : List (String × α)) (f : α → α) :
    (g.map fun e => (e.1, f e.2)).map Prod.fst = g.map Prod.fst := by
  induction g with
  | nil => rfl
  | cons e rest ih => simp_all

/-- `collate_step` keeps the series column of the grid. -/
theorem collate_step_keys (g : Grid) (b : CBranch) :
    (collate_step g b).map Prod.fst = g.map Prod.fst := by
  unfold collate_step
  cases hp : parse_branch b.name with
  | mk pocket oc =>
    cases oc with
    | none => exact map_fst_all g _
    | some codename => exact map_fst_modify g codename _

/-- Folding collation steps keeps the series column. -/
theorem foldl_collate_keys (bs : List CBranch) :
    ∀ g : Grid, (bs.foldl collate_step g).map Prod.fst = g.map Prod.fst := by
  induction bs with
  | nil => intro g; rfl
  | cons b rest ih =>
    intro g
    rw [List.foldl_cons, ih, collate_step_keys]

/-- A key present in the key column has a binding. -/
theorem alookup_isSome_of_keys {α : Type} (g : List (String × α)) (s : String)
    (h : s ∈ g.map Prod.fst) : ∃ v, alookup s g = some v := by
  induction g with
  | nil => simp at h
  | cons e rest ih =>
    obtain ⟨k, v⟩ := e
    by_cases hk : k = s
    · exact ⟨v, by simp [alookup, hk]⟩
    · simp only [List.map_cons, List.mem_cons] at h
      rcases h with h1 | h2
      · exact absurd h1.symm hk
      · obtain ⟨w, hw⟩ := ih h2
        exact ⟨w, by simp [alookup, hk, hw]⟩

/-- The initial grid binds every configured series to an empty pocket map. -/
theorem alookup_init (series : List String) (s : String) (h : s ∈ series) :
    alookup s (series.map fun x => (x, ([] : Pockets))) = some [] := by
  induction series with
  | nil => simp at h
  | cons a rest ih =>
    by_cases ha : a = s
    · simp [alookup_cons, ha]
    · rcases List.mem_cons.mp h with h1 | h2
      · exact absurd h1.symm ha
      · simp [alookup_cons, ha, ih h2]

/-- Appending a branch that wins the prefixed rule for `(s, p)`. -/
theorem cell_spec_append_pref (bs : List CBranch) (b : CBranch) (s p : String)
    (hb : pref_pred s p b = true) :
    cell_spec (bs ++ [b]) s p = some b.sha := by
  unfold cell_spec
  rw [List.filter_append]
  have h1 : List.filter (pref_pred s p) [b] = [b] := by simp [hb]
  rw [h1, List.getLast?_append]
  simp

/-- Appending a branch irrelevant to cell `(s, p)`. -/
theorem cell_spec_append_skip (bs : List CBranch) (b : CBranch) (s p : String)
    (hb1 : pref_pred s p b = false) (hb2 : wild_pred p b = false) :
    cell_spec (bs ++ [b]) s p = cell_spec bs s p := by
  unfold cell_spec
  rw [List.filter_append, List.find?_append]
  have h1 : List.filter (pref_pred s p) [b] = [] := by simp [hb1]
  have h2 : List.find? (wild_pred p) [b] = none := by simp [hb2]
  rw [h1, h2, List.append_nil, Option.or_none]

/-- Appending a branch that matches the wildcard rule for `p` but not the
prefixed rule for `(s, p)`. -/
theorem cell_spec_append_wild (bs : List CBranch) (b : CBranch) (s p : String)
    (hb1 : pref_pred s p b = false) (hb2 : wild_pred p b = true) :
    cell_spec (bs ++ [b]) s p =
      match cell_spec bs s p with
      | some w => some w
      | none => some b.sha := by
  unfold cell_spec
  rw [List.filter_append, List.find?_append]
  have h1 : List.filter (pref_pred s p) [b] = [] := by simp [hb1]
  have h2 : List.find? (wild_pred p) [b] = some b := by simp [hb2]
  rw [h1, h2, List.append_nil]
  cases hga : (bs.filter (pref_pred s p)).getLast? with
  | some bp => rfl
  | none =>
    cases hf : bs.find? (wild_pred p) with
    | some bw => simp
    | none => simp

/-- The grid cell `(s, p)` of `build_queue` equals `cell_spec`, for every
configured series `s` and every branch arrival order. -/
theorem build_queue_lookup (series : List String) (branches : List CBranch)
    (s p : String) (hs : s ∈ series) :
    grid_lookup (build_queue series branches) s p = cell_spec branches s p := by
  induction branches using List.reverseRecOn with
  | nil =>
    unfold build_queue grid_lookup cell_spec
    rw [List.foldl_nil, alookup_init series s hs]
    simp [alookup_nil]
  | append_singleton bs b ih =>
    have hgrid : build_queue series (bs ++ [b])
        = collate_step (build_queue series bs) b := by
      unfold build_queue
      rw [List.foldl_append, List.foldl_cons, List.foldl_nil]
    have hkeys : (build_queue series bs).map Prod.fst = series := by
      unfold build_queue
      rw [foldl_collate_keys]
      simp [Function.comp_def]
    obtain ⟨pockets, hpk⟩ :=
      alookup_isSome_of_keys (build_queue series bs) s (by rw [hkeys]; exact hs)
    have ihp : alookup p pockets = cell_spec bs s p := by
      unfold grid_lookup at ih
      rw [hpk] at ih
      simpa using ih
    rw [hgrid]
    unfold collate_step
    cases hpb : parse_branch b.name with
    | mk pocket oc =>
      cases oc with
      | some codename =>
        unfold grid_lookup
        rw [alookup_map_modify]
        by_cases hsc : s = codename
        · rw [if_pos hsc, hpk]
          simp only [Option.map_some', Option.some_bind]
          rw [alookup_assoc_insert]
          by_cases hpp : p = pocket
          · rw [if_pos hpp]
            have hb : pref_pred s p b = true := by
              simp [pref_pred, hpb, hpp, hsc]
            rw [cell_spec_append_pref bs b s p hb]
          · rw [if_neg hpp]
            have hb1 : pref_pred s p b = false := by
              simp only [pref_pred, hpb, decide_eq_false_iff_not]
              intro h
              rw [Prod.mk.injEq] at h
              exact hpp h.1.symm
            have hb2 : wild_pred p b = false := by
              simp only [wild_pred, hpb, decide_eq_false_iff_not]
              intro h
              rw [Prod.mk.injEq] at h
              exact Option.noConfusion h.2
            rw [cell_spec_append_skip bs b s p hb1 hb2]
            exact ihp
        · rw [if_neg hsc, hpk]
          simp only [Option.some_bind]
          have hb1 : pref_pred s p b = false := by
            simp only [pref_pred, hpb, decide_eq_false_iff_not]
            intro h
            rw [Prod.mk.injEq] at h
            exact hsc ((Option.some.injEq _ _ ▸ h.2).symm)
          have hb2 : wild_pred p b = false := by
            simp only [wild_pred, hpb, decide_eq_false_iff_not]
            intro h
            rw [Prod.mk.injEq] at h
            exact Option.noConfusion h.2
          rw [cell_spec_append_skip bs b s p hb1 hb2]
          exact ihp
      | none =>
        unfold grid_lookup
        rw [alookup_map_all, hpk]
        simp only [Option.map_some', Option.some_bind]
        rw [alookup_insert_if_absent]
        by_cases hpp : p = pocket
        · rw [if_pos hpp]
          have hb1 : pref_pred s p b = false := by
            simp only [pref_pred, hpb, decide_eq_false_iff_not]
            intro h
            rw [Prod.mk.injEq] at h
            exact Option.noConfusion h.2
          have hb2 : wild_pred p b = true := by
            simp [wild_pred, hpb, hpp]
          rw [cell_spec_append_wild bs b s p hb1 hb2]
          rw [← hpp, ihp]
          cases cell_spec bs s p with
          | some w => rfl
          | none => rfl
        · rw [if_neg hpp]
          have hb1 : pref_pred s p b = false := by
            simp only [pref_pred, hpb, decide_eq_false_iff_not]
            intro h
            rw [Prod.mk.injEq] at h
            exact Option.noConfusion h.2
          have hb2 : wild_pred p b = false := by
            simp only [wild_pred, hpb, decide_eq_false_iff_not]
            intro h
            rw [Prod.mk.injEq] at h
            exact hpp h.1.symm
          rw [cell_spec_append_skip bs b s p hb1 hb2]
          exact ihp

/-- With pairwise-distinct parse results, the prefixed rule has at most one
matching branch, so last-wins and first-wins coincide. -/
theorem filter_getLast_eq_find (s p : String) (bs : List CBranch)
    (hnd : (bs.map fun b => parse_branch b.name).Nodup) :
    (bs.filter (pref_pred s p)).getLast? = bs.find? (pref_pred s p) := by
  induction bs with
  | nil => rfl
  | cons b rest ih =>
    rw [List.map_cons, List.nodup_cons] at hnd
    obtain ⟨hnotin, hnd'⟩ := hnd
    by_cases hb : pref_pred s p b = true
    · rw [List.filter_cons_of_pos hb, List.find?_cons_of_pos _ hb]
      have hrest : rest.filter (pref_pred s p) = [] := by
        rw [List.filter_eq_nil_iff]
        intro a ha hpa
        apply hnotin
        rw [List.mem_map]
        refine ⟨a, ha, ?_⟩
        have h1 : parse_branch a.name = (p, some s) := of_decide_eq_true hpa
        have h2 : parse_branch b.name = (p, some s) := of_decide_eq_true hb
        rw [h1, h2]
      rw [hrest]
      rfl
    · rw [List.filter_cons_of_neg (by simpa using hb),
        List.find?_cons_of_neg _ (by simpa using hb)]
      exact ih hnd'

/-- C3: for every configured series `s` and pocket `p`, and every branch
arrival order with pairwise-distinct `pocket[_series]` parses, the grid cell
`(s, p)` holds the `GitTar` of the branch named `p_s` when one exists, and
otherwise the `GitTar` of the wildcard branch named `p` — wildcard entries
never displace a series-prefixed entry, independently of arrival order. -/
theorem build_queue_characterization (series : List String)
    (branches : List CBranch) (s p : String)
    (hnd : (branches.map fun b => parse_branch b.name).Nodup)
    (hs : s ∈ series) :
    grid_lookup (build_queue series branches) s p =
      match branches.find? (pref_pred s p) with
      | some b => some b.sha
      | none => (branches.find? (wild_pred p)).map CBranch.sha := by
  rw [build_queue_lookup series branches s p hs]
  unfold cell_spec
  rw [filter_getLast_eq_find s p branches hnd]

/-- C3 witness: two series `focal`, `jammy`, a wildcard branch `master` and
an override branch `master_focal`; the characterization applied at the cell
(`focal`, `master`) yields the override's commit. -/
theorem build_queue_characterization_witness :
    ((([⟨"master", "aaa"⟩, ⟨"master_focal", "bbb"⟩] : List CBranch).map
          fun b => parse_branch b.name).Nodup ∧
        "focal" ∈ ["focal", "jammy"]) ∧
      grid_lookup
          (build_queue ["focal", "jammy"]
            [⟨"master", "aaa"⟩, ⟨"master_focal", "bbb"⟩]) "focal" "master" =
        match ([⟨"master", "aaa"⟩, ⟨"master_focal", "bbb"⟩] : List CBranch).find?
            (pref_pred "focal" "master") with
        | some b => some b.sha
        | none =>
          (([⟨"master", "aaa"⟩, ⟨"master_focal", "bbb"⟩] : List CBranch).find?
              (wild_pred "master")).map CBranch.sha :=
  ⟨⟨by decide, by decide⟩,
    build_queue_characterization ["focal", "jammy"]
      [⟨"master", "aaa"⟩, ⟨"master_focal", "bbb"⟩] "focal" "master"
      (by decide) (by decide)⟩

/- ## C5, C7 — the Binary Builder (src/dpkg.rs 36-256) -/

/-- A result type mirroring the Rust `Result`/`anyhow::Result` shape, with
decidable equality so that concrete runs evaluate in the kernel. -/
inductive Res (α : Type)
  | error (msg : String)
  | ok (val : α)
deriving DecidableEq, Repr

/-- Model of `.replace("arch=", "")` (src/dpkg.rs 90): remove every
non-overlapping occurrence of `arch=`, scanning left to right. -/
def remove_arch_eq : List Char → List Char
  | 'a' :: 'r' :: 'c' :: 'h' :: '=' :: rest => remove_arch_eq rest
  | c :: rest => c :: remove_arch_eq rest
  | [] => []

/-- `linux_non_requirement` (src/dpkg.rs 73-76). -/
def linux_non_requirement (repoName : String) (binary : List Char) : Bool :=
  repoName == "linux"
    && ("-dbgsym".toList.isSuffixOf binary
      || "linux-udebs-".toList.isPrefixOf binary)

/-- `systemd_non_requirement` (src/dpkg.rs 79-80). -/
def systemd_non_requirement (repoName : String) (binary : List Char) : Bool :=
  repoName == "systemd" && "-udeb".toList.isSuffixOf binary

/-- Effective architecture of one arch-set entry (src/dpkg.rs 92-99):
`any`, `linux-any` and the build arch literal resolve to the build arch;
`all` resolves to `all` on the arch-all builder; anything else is skipped. -/
def resolve_arch (buildArch : String) (buildAll : Bool) (arch : List Char) :
    Option String :=
  if arch = "any".toList ∨ arch = "linux-any".toList ∨ arch = buildArch.toList
  then some buildArch
  else if buildAll = true ∧ arch = "all".toList then some "all"
  else none

/-- One `Package-List` line of `Dpkg::binary` (src/dpkg.rs 62-109), reduced
to the `(binary, effective arch)` pairs it contributes: fields are
whitespace-separated as `binary kind section priority arch=<set>`; `udeb`
entries and the linux/systemd exclusions are skipped before the arch field
is even read; each entry of the comma-separated arch set contributes a pair
when it resolves.  The `.deb` path is `<binary>_<path-version>_<arch>.deb`
(`deb_filename` below) — the code pushes one path per resolving entry with
no deduplication. -/
def line_ids (repoName buildArch : String) (buildAll : Bool) (line : List Char) :
    Res (List (String × String)) :=
  match split_ws line with
  | [] => Res.error "failed to find binary field in package list"
  | [_] => Res.error "failed to find kind field in package list"
  | binary :: kind :: rest =>
    if kind = "udeb".toList ∨ linux_non_requirement repoName binary = true
        ∨ systemd_non_requirement repoName binary = true then
      Res.ok []
    else
      match rest.drop 2 with
      | [] => Res.error "failed to find architectures field in package list"
      | archsField :: _ =>
        let archs := split_char ',' (remove_arch_eq archsField)
        Res.ok (archs.filterMap fun a =>
          (resolve_arch buildArch buildAll a).map fun d => (binary.asString, d))

/-- The pairs of one line, empty on a parse error (used to state
per-line hypotheses). -/
def line_ok (repoName buildArch : String) (buildAll : Bool) (l : List Char) :
    List (String × String) :=
  match line_ids repoName buildArch buildAll l with
  | Res.error _ => []
  | Res.ok ids => ids

/-- The enumeration loop over all package-list lines, stopping at the first
malformed line exactly as the Rust `for` loop does. -/
def lines_ids (repoName buildArch : String) (buildAll : Bool) :
    List (List Char) → Res (List (String × String))
  | [] => Res.ok []
  | l :: rest =>
    match line_ids repoName buildArch buildAll l with
    | Res.error e => Res.error e
    | Res.ok ids =>
      match lines_ids repoName buildArch buildAll rest with
      | Res.error e => Res.error e
      | Res.ok more => Res.ok (ids ++ more)

/-- `package_list.trim().lines()` (src/dpkg.rs 62). -/
def pkg_lines (packageList : String) : List (List Char) :=
  rust_lines (trim_chars packageList.toList)

/-- The full expected-output enumeration of `Dpkg::binary` for one call,
as `(binary, effective arch)` pairs in declaration order. -/
def binary_expected_ids (repoName buildArch : String) (buildAll : Bool)
    (packageList : String) : Res (List (String × String)) :=
  lines_ids repoName buildArch buildAll (pkg_lines packageList)

/-- The expected `.deb` file name (src/dpkg.rs 101), relative to the
binary output directory. -/
def deb_filename (binary pathVersion debArch : String) : String :=
  binary ++ "_" ++ pathVersion ++ "_" ++ debArch ++ ".deb"

/-- The previous-build log name (src/dpkg.rs 117), relative to the binary
output directory. -/
def build_log_name (sourceName pathVersion buildArch : String) : String :=
  sourceName ++ "_" ++ pathVersion ++ "_" ++ buildArch ++ ".build"

/-- How a `Dpkg::binary` call decides about spawning sbuild. -/
inductive BinAction
  | emptyNoBuild
  | noBuildAllPresent
  | noBuildLogExists
  | runBuild
deriving DecidableEq, Repr

/-- The missing-deb post-check (src/dpkg.rs 242-253): any expected `.deb`
still missing empties the returned list. -/
def final_debs (fx : String → Bool) (debs : List String) : List String :=
  if debs.all fx then debs else []

/-- `Dpkg::binary` (src/dpkg.rs 36-256) up to the sbuild invocation,
parameterized by the file-existence predicate `fx` over names in the binary
output directory.  `found_binaries` of the Rust loop is exactly "every
expected deb exists".  In the `runBuild` case the returned list is the
pre-build expectation; the post-build re-check depends on sbuild's file
effects and is outside this pure model. -/
def binary_model (repoName buildArch : String) (buildAll : Bool)
    (sourceName pathVersion : String) (packageList : String)
    (fx : String → Bool) : Res (List String × BinAction) :=
  match binary_expected_ids repoName buildArch buildAll packageList with
  | Res.error e => Res.error e
  | Res.ok ids =>
    let debs := ids.map fun q => deb_filename q.1 pathVersion q.2
    if debs = [] then Res.ok ([], BinAction.emptyNoBuild)
    else if debs.all fx then
      Res.ok (final_debs fx debs, BinAction.noBuildAllPresent)
    else if fx (build_log_name sourceName pathVersion buildArch) then
      Res.ok (final_debs fx debs, BinAction.noBuildLogExists)
    else Res.ok (debs, BinAction.runBuild)

/-- C5 counterexample: the claim says that when the previous build log
exists, the Binary Builder returns the expected list unbuilt.  With a
single expected deb `foo_1_amd64.deb` absent and the log
`foo_1_amd64.build` present, no build is spawned but the returned list is
empty — not the expected one-element list. -/
theorem binary_log_cache_returns_empty :
    binary_expected_ids "foo" "amd64" false "foo deb admin optional arch=amd64"
        = Res.ok [("foo", "amd64")] ∧
      binary_model "foo" "amd64" false "foo" "1" "foo deb admin optional arch=amd64"
          (fun q => q == "foo_1_amd64.build")
        = Res.ok ([], BinAction.noBuildLogExists) ∧
      ([("foo", "amd64")] : List (String × String)).map
          (fun q => deb_filename q.1 "1" q.2) = ["foo_1_amd64.deb"] := by
  refine ⟨by decide, by decide, by decide⟩

/-- C5 amended: the Binary Builder spawns no build process when every
expected `.deb` exists (returning the expected list), when the previous
build log exists (spawning nothing — but since some deb is then missing,
the missing-deb post-check makes it return the empty list, not the
expected list), and when the filtered Package-List yields no expected debs
(returning the empty list without building). -/
theorem binary_no_build_paths (repoName buildArch : String) (buildAll : Bool)
    (sourceName pathVersion packageList : String) (fx : String → Bool)
    (ids : List (String × String))
    (hok : binary_expected_ids repoName buildArch buildAll packageList
      = Res.ok ids) :
    (ids = [] →
      binary_model repoName buildArch buildAll sourceName pathVersion
          packageList fx = Res.ok ([], BinAction.emptyNoBuild)) ∧
      ((ids.map fun q => deb_filename q.1 pathVersion q.2).all fx = true →
        ids ≠ [] →
        binary_model repoName buildArch buildAll sourceName pathVersion
            packageList fx
          = Res.ok (ids.map fun q => deb_filename q.1 pathVersion q.2,
              BinAction.noBuildAllPresent)) ∧
      ((ids.map fun q => deb_filename q.1 pathVersion q.2).all fx = false →
        fx (build_log_name sourceName pathVersion buildArch) = true →
        binary_model repoName buildArch buildAll sourceName pathVersion
            packageList fx = Res.ok ([], BinAction.noBuildLogExists)) := by
  unfold binary_model
  rw [hok]
  dsimp only
  refine ⟨?_, ?_, ?_⟩
  · intro hnil
    subst hnil
    simp
  · intro hall hne
    have hdne : ids.map (fun q => deb_filename q.1 pathVersion q.2) ≠ [] := by
      simpa using hne
    rw [if_neg hdne, if_pos hall]
    unfold final_debs
    rw [if_pos hall]
  · intro hall hlog
    have hdne : ids.map (fun q => deb_filename q.1 pathVersion q.2) ≠ [] := by
      intro hd
      rw [hd] at hall
      simp at hall
    rw [if_neg hdne, if_neg (by rw [hall]; exact Bool.false_ne_true),
      if_pos hlog]
    unfold final_debs
    rw [if_neg (by rw [hall]; exact Bool.false_ne_true)]

/-- C5 witness: the no-build branches of `binary_no_build_paths` at a
concrete input — expected deb `bar_2_amd64.deb` absent, previous build log
`bar_2_amd64.build` present — yield the empty list with no build spawned. -/
theorem binary_no_build_paths_witness :
    binary_expected_ids "bar" "amd64" false "bar deb admin optional arch=any"
        = Res.ok [("bar", "amd64")] ∧
      binary_model "bar" "amd64" false "bar" "2" "bar deb admin optional arch=any"
          (fun q => q == "bar_2_amd64.build")
        = Res.ok ([], BinAction.noBuildLogExists) :=
  ⟨by decide,
    (binary_no_build_paths "bar" "amd64" false "bar" "2"
        "bar deb admin optional arch=any" (fun q => q == "bar_2_amd64.build")
        [("bar", "amd64")] (by decide)).2.2 (by decide) (by decide)⟩

/-- C7 counterexample: the claim says the expected-deb list never contains
duplicate paths, even for arch sets listing both `any` and the build arch
literal.  The line `foo deb admin optional arch=any,amd64` on build arch
`amd64` resolves both entries to `amd64`, producing the same
`foo_1_amd64.deb` path twice. -/
theorem expected_debs_duplicate_paths :
    binary_expected_ids "foo" "amd64" false "foo deb admin optional arch=any,amd64"
        = Res.ok [("foo", "amd64"), ("foo", "amd64")] ∧
      ¬ ([("foo", "amd64"), ("foo", "amd64")] : List (String × String)).Nodup ∧
      (([("foo", "amd64"), ("foo", "amd64")] : List (String × String)).map
          fun q => deb_filename q.1 "1" q.2)
        = ["foo_1_amd64.deb", "foo_1_amd64.deb"] := by
  refine ⟨by decide, by decide, by decide⟩

/-- Every enumerated pair comes from some package-list line. -/
theorem mem_lines_ids (repoName buildArch : String) (buildAll : Bool) :
    ∀ (lines : List (List Char)) (ids : List (String × String)),
      lines_ids repoName buildArch buildAll lines = Res.ok ids →
      ∀ q ∈ ids, ∃ l ∈ lines, q ∈ line_ok repoName buildArch buildAll l := by
  intro lines
  induction lines with
  | nil =>
    intro ids h q hq
    simp only [lines_ids, Res.ok.injEq] at h
    subst h
    simp at hq
  | cons l rest ih =>
    intro ids h q hq
    cases hl : line_ids repoName buildArch buildAll l with
    | error e =>
      simp only [lines_ids, hl] at h
      exact Res.noConfusion h
    | ok idsl =>
      cases hr : lines_ids repoName buildArch buildAll rest with
      | error e =>
        simp only [lines_ids, hl, hr] at h
        exact Res.noConfusion h
      | ok more =>
        simp only [lines_ids, hl, hr, Res.ok.injEq] at h
        subst h
        rcases List.mem_append.mp hq with h1 | h2
        · refine ⟨l, List.mem_cons_self l rest, ?_⟩
          unfold line_ok
          rw [hl]
          exact h1
        · obtain ⟨l2, hl2, hq2⟩ := ih more hr q h2
          exact ⟨l2, List.mem_cons_of_mem l hl2, hq2⟩

/-- C7 amended: for a given (source-name, path-version, arch) triple the
expected-deb list has no duplicates provided each line's arch set resolves
to pairwise-distinct effective architectures and distinct lines name
distinct binaries; when an arch set lists two entries resolving to the same
effective architecture — e.g. both `any` (or `linux-any`) and the build
arch literal — the same path is pushed twice (no deduplication exists in
the enumeration loop). -/
theorem expected_ids_nodup (repoName buildArch : String) (buildAll : Bool)
    (lines : List (List Char)) (ids : List (String × String))
    (hok : lines_ids repoName buildArch buildAll lines = Res.ok ids)
    (hline : ∀ l ∈ lines,
      ((line_ok repoName buildArch buildAll l).map Prod.snd).Nodup)
    (hdisj : lines.Pairwise fun l1 l2 =>
      ∀ q1 ∈ line_ok repoName buildArch buildAll l1,
        ∀ q2 ∈ line_ok repoName buildArch buildAll l2, q1.1 ≠ q2.1) :
    ids.Nodup := by
  induction lines generalizing ids with
  | nil =>
    simp only [lines_ids, Res.ok.injEq] at hok
    subst hok
    exact List.nodup_nil
  | cons l rest ih =>
    cases hl : line_ids repoName buildArch buildAll l with
    | error e =>
      simp only [lines_ids, hl] at hok
      exact Res.noConfusion hok
    | ok idsl =>
      cases hr : lines_ids repoName buildArch buildAll rest with
      | error e =>
        simp only [lines_ids, hl, hr] at hok
        exact Res.noConfusion hok
      | ok more =>
        simp only [lines_ids, hl, hr, Res.ok.injEq] at hok
        subst hok
        have hlo : line_ok repoName buildArch buildAll l = idsl := by
          unfold line_ok
          rw [hl]
        rw [List.pairwise_cons] at hdisj
        obtain ⟨hd1, hd2⟩ := hdisj
        rw [List.nodup_append]
        refine ⟨?_, ?_, ?_⟩
        · have h1 := hline l (List.mem_cons_self l rest)
          rw [hlo] at h1
          exact List.Nodup.of_map Prod.snd h1
        · exact ih more hr (fun a ha => hline a (List.mem_cons_of_mem l ha)) hd2
        · intro q hq1 hq2
          obtain ⟨l2, hl2, hq2'⟩ :=
            mem_lines_ids repoName buildArch buildAll rest more hr q hq2
          exact hd1 l2 hl2 q (by rw [hlo]; exact hq1) q hq2' rfl

/-- C7 witness: a two-line package list — one arch-specific binary, one
arch-independent binary on the arch-all builder — satisfies the
hypotheses, and its expected pairs are duplicate-free. -/
theorem expected_ids_nodup_witness :
    (lines_ids "app" "amd64" true
          (pkg_lines "app deb admin optional arch=amd64\ndata deb admin optional arch=all")
        = Res.ok [("app", "amd64"), ("data", "all")] ∧
      (∀ l ∈ pkg_lines "app deb admin optional arch=amd64\ndata deb admin optional arch=all",
        ((line_ok "app" "amd64" true l).map Prod.snd).Nodup) ∧
      (pkg_lines "app deb admin optional arch=amd64\ndata deb admin optional arch=all").Pairwise
        (fun l1 l2 => ∀ q1 ∈ line_ok "app" "amd64" true l1,
          ∀ q2 ∈ line_ok "app" "amd64" true l2, q1.1 ≠ q2.1)) ∧
      ([("app", "amd64"), ("data", "all")] : List (String × String)).Nodup :=
  ⟨⟨by decide, by decide, by decide⟩,
    expected_ids_nodup "app" "amd64" true
      (pkg_lines "app deb admin optional arch=amd64\ndata deb admin optional arch=all")
      [("app", "amd64"), ("data", "all")]
      (by decide) (by decide) (by decide)⟩

/- ## C8 — Fetcher::branches (src/fetcher.rs 107-151) -/

/-- A remote branch as returned by the forge client: name and commit sha. -/
structure RBranch where
  name : String
  sha : String
deriving DecidableEq, Repr

/-- The emitted `Branch` record (src/fetcher.rs 40-48). -/
structure FBranch where
  name : String
  sha : String
  required_checkout : Bool
deriving DecidableEq, Repr

/-- The per-branch comparison (src/fetcher.rs 114-116):
`local_branches.get(&name).map_or(true, |commit| commit != &sha)`. -/
def requires_checkout (locals : List (String × String)) (b : RBranch) : Bool :=
  match alookup b.name locals with
  | none => true
  | some commit => decide (commit ≠ b.sha)

/-- Version-control actions of the serial reconciliation loop. -/
inductive FetchAct
  | fetchOrigin
  | checkout (sha : String)
deriving DecidableEq, Repr

/-- Recognizes the `git fetch origin` action. -/
def is_fetch : FetchAct → Bool
  | FetchAct.fetchOrigin => true
  | _ => false

/-- The serial loop of `Fetcher::branches` (src/fetcher.rs 112-143): the
`fetched` flag guards a single `fetch origin`, performed before the first
checkout that is required; required branches are checked out in remote
order. -/
def branches_trace (locals : List (String × String)) :
    List RBranch → Bool → List FetchAct
  | [], _ => []
  | b :: rest, fetched =>
    if requires_checkout locals b then
      (if fetched then [] else [FetchAct.fetchOrigin])
        ++ (FetchAct.checkout b.sha :: branches_trace locals rest true)
    else branches_trace locals rest fetched

/-- Insertion step of the name sort. -/
def insert_by_name (b : FBranch) : List FBranch → List FBranch
  | [] => [b]
  | x :: xs =>
    if b.name ≤ x.name then b :: x :: xs else x :: insert_by_name b xs

/-- Model of `branches.sort_by(|a, b| a.name.cmp(&b.name))`
(src/fetcher.rs 145). -/
def sort_by_name : List FBranch → List FBranch
  | [] => []
  | x :: xs => insert_by_name x (sort_by_name xs)

/-- The `Repository.branches` emitted by `Fetcher::branches`
(src/fetcher.rs 138-151): one record per remote branch with its
`required_checkout` flag, sorted by name. -/
def fetcher_branches (locals : List (String × String))
    (remote : List RBranch) : List FBranch :=
  sort_by_name (remote.map fun b =>
    ⟨b.name, b.sha, requires_checkout locals b⟩)

/-- Inserting keeps the multiset of branches. -/
theorem insert_by_name_perm (b : FBranch) (l : List FBranch) :
    (insert_by_name b l).Perm (b :: l) := by
  induction l with
  | nil => exact List.Perm.refl _
  | cons x xs ih =>
    by_cases h : b.name ≤ x.name
    · rw [insert_by_name, if_pos h]
    · rw [insert_by_name, if_neg h]
      exact (ih.cons x).trans (List.Perm.swap b x xs)

/-- Sorting keeps the multiset of branches. -/
theorem sort_by_name_perm (l : List FBranch) : (sort_by_name l).Perm l := by
  induction l with
  | nil => exact List.Perm.refl _
  | cons x xs ih =>
    exact (insert_by_name_perm x (sort_by_name xs)).trans (ih.cons x)

/-- Inserting preserves name-sortedness. -/
theorem insert_by_name_sorted (b : FBranch) (l : List FBranch)
    (h : l.Pairwise fun a c => a.name ≤ c.name) :
    (insert_by_name b l).Pairwise fun a c => a.name ≤ c.name := by
  induction l with
  | nil => simp [insert_by_name]
  | cons x xs ih =>
    rw [List.pairwise_cons] at h
    obtain ⟨hx, hxs⟩ := h
    by_cases hb : b.name ≤ x.name
    · rw [insert_by_name, if_pos hb, List.pairwise_cons]
      constructor
      · intro c hc
        rcases List.mem_cons.mp hc with h1 | h2
        · rw [h1]
          exact hb
        · exact le_trans hb (hx c h2)
      · rw [List.pairwise_cons]
        exact ⟨hx, hxs⟩
    · rw [insert_by_name, if_neg hb, List.pairwise_cons]
      constructor
      · intro c hc
        have hmem := (insert_by_name_perm b xs).mem_iff.mp hc
        rcases List.mem_cons.mp hmem with h1 | h2
        · rw [h1]
          exact le_of_not_le hb
        · exact hx c h2
      · exact ih hxs

/-- Sorting produces a name-sorted list. -/
theorem sort_by_name_sorted (l : List FBranch) :
    (sort_by_name l).Pairwise fun a c => a.name ≤ c.name := by
  induction l with
  | nil => simp [sort_by_name]
  | cons x xs ih => exact insert_by_name_sorted x (sort_by_name xs) ih

/-- After the flag is set, no further fetch is emitted. -/
theorem branches_trace_true_no_fetch (locals : List (String × String))
    (remote : List RBranch) :
    (branches_trace locals remote true).countP is_fetch = 0 := by
  induction remote with
  | nil => rfl
  | cons b rest ih =>
    cases h : requires_checkout locals b with
    | true => simp [branches_trace, h, List.countP_cons, is_fetch, ih]
    | false => simp [branches_trace, h, ih]

/-- The fetch count from a cold start: one when some branch requires
checkout, zero otherwise. -/
theorem branches_trace_false_count (locals : List (String × String))
    (remote : List RBranch) :
    (branches_trace locals remote false).countP is_fetch
      = if ∃ b ∈ remote, requires_checkout locals b = true then 1 else 0 := by
  induction remote with
  | nil => simp [branches_trace]
  | cons b rest ih =>
    cases h : requires_checkout locals b with
    | true =>
      rw [if_pos ⟨b, List.mem_cons_self b rest, h⟩]
      simp [branches_trace, h, List.countP_cons, is_fetch,
        branches_trace_true_no_fetch]
    | false =>
      have hiff : (∃ x ∈ b :: rest, requires_checkout locals x = true)
          ↔ ∃ x ∈ rest, requires_checkout locals x = true := by
        constructor
        · rintro ⟨x, hx, hreq⟩
          rcases List.mem_cons.mp hx with h1 | h2
          · rw [h1, h] at hreq
            exact absurd hreq (by simp)
          · exact ⟨x, h2, hreq⟩
        · rintro ⟨x, hx, hreq⟩
          exact ⟨x, List.mem_cons_of_mem b hx, hreq⟩
      simp only [branches_trace, h, if_false, Bool.false_eq_true, hiff]
      exact ih

/-- C8: a remote branch requires checkout exactly when there is no local
head of its name or the local head differs from the remote sha; from a cold
start the trace contains at most one `fetch origin`, and contains one
exactly when some branch requires checkout; the emitted branch list is
sorted by name and is a permutation of the remote branches tagged with
their `required_checkout` flags. -/
theorem fetcher_branches_spec (locals : List (String × String))
    (remote : List RBranch) :
    (∀ b : RBranch, requires_checkout locals b = true ↔
        (alookup b.name locals = none ∨
          ∃ commit, alookup b.name locals = some commit ∧ commit ≠ b.sha)) ∧
      (branches_trace locals remote false).countP is_fetch ≤ 1 ∧
      ((branches_trace locals remote false).countP is_fetch = 1 ↔
        ∃ b ∈ remote, requires_checkout locals b = true) ∧
      (fetcher_branches locals remote).Pairwise (fun a c => a.name ≤ c.name) ∧
      (fetcher_branches locals remote).Perm
        (remote.map fun b => ⟨b.name, b.sha, requires_checkout locals b⟩) := by
  refine ⟨?_, ?_, ?_, sort_by_name_sorted _, sort_by_name_perm _⟩
  · intro b
    unfold requires_checkout
    cases hb : alookup b.name locals with
    | none => simp
    | some commit =>
      simp only [decide_eq_true_eq]
      constructor
      · intro hne
        exact Or.inr ⟨commit, rfl, hne⟩
      · rintro (h1 | ⟨c, hc, hne⟩)
        · exact Option.noConfusion h1
        · rw [Option.some.injEq] at hc
          rw [hc]
          exact hne
  · rw [branches_trace_false_count]
    split
    · exact le_refl 1
    · exact Nat.zero_le 1
  · rw [branches_trace_false_count]
    split
    · rename_i hex
      exact ⟨fun _ => hex, fun _ => rfl⟩
    · rename_i hex
      exact ⟨fun h0 => absurd h0 one_ne_zero.symm, fun hx => absurd hx hex⟩

/- ## C10 — parse_dsc (src/dpkg.rs 467-507) -/

/-- Possible outcomes of `parse_dsc`: a successful triple, one of the three
`ensure!` errors, the out-of-bounds panic of the Package-List byte slice
`&dsc[start..read - 1]`, or the literal `panic!` statement after the
ensures.  `fuelExhausted` is the artefact of the fuel-based recursion; the
fuel is the line count, which never runs out
(`parse_loop_no_fuel_exhausted`). -/
inductive DscOut
  | ok (source version packageList : List Char)
  | err (msg : String)
  | slicePanic
  | finalPanic
  | fuelExhausted
deriving DecidableEq, Repr

/-- The inner Package-List loop (src/dpkg.rs 485-491): consume continuation
lines starting with a space, adding `len + 1` to the byte counter; the
first non-continuation line is consumed from the shared iterator and
dropped. -/
def pl_scan (lines : List (List Char)) (read : Nat) : Nat × List (List Char) :=
  match lines with
  | [] => (read, [])
  | l :: rest =>
    if l.head? = some ' ' then pl_scan rest (read + l.length + 1)
    else (read, rest)

/-- The `Source:` field prefix. -/
def sourceKey : List Char := "Source:".toList

/-- The `Version:` field prefix. -/
def versionKey : List Char := "Version:".toList

/-- The `Package-List:` field prefix. -/
def packageListKey : List Char := "Package-List:".toList

/-- The loop of `parse_dsc` (src/dpkg.rs 470-500).  Each iteration adds
`line.len() + 1` to `read` first; a branch fires only while its field is
still empty; `set` is incremented with every assignment and the function
returns inside the loop as soon as it reaches 3 (the Rust code checks
`set == 3` after the branch chain, which is equivalent since `set` only
changes inside the branches).  The Package-List branch slices
`dsc[read1 .. scanned - 1]`, panicking exactly when the Rust byte slice
would.  The fuel decreases on every iteration while the line list never
grows, so `fuel = lines.length` never exhausts. -/
def parse_loop (dsc : List Char) (fuel : Nat) (lines : List (List Char))
    (source version pl : List Char) (set read : Nat) : DscOut :=
  match lines with
  | [] =>
    if source = [] then DscOut.err "missing source"
    else if version = [] then DscOut.err "missing version"
    else if pl = [] then DscOut.err "missing package list"
    else DscOut.finalPanic
  | line :: rest =>
    match fuel with
    | 0 => DscOut.fuelExhausted
    | f + 1 =>
      let read1 := read + line.length + 1
      if source = [] ∧ sourceKey.isPrefixOf line = true then
        let source1 := trim_chars (line.drop 7)
        if set + 1 = 3 then DscOut.ok source1 version pl
        else parse_loop dsc f rest source1 version pl (set + 1) read1
      else if version = [] ∧ versionKey.isPrefixOf line = true then
        let version1 := trim_chars (line.drop 8)
        if set + 1 = 3 then DscOut.ok source version1 pl
        else parse_loop dsc f rest source version1 pl (set + 1) read1
      else if pl = [] ∧ packageListKey.isPrefixOf line = true then
        let scanned := pl_scan rest read1
        if read1 ≤ scanned.1 - 1 ∧ scanned.1 - 1 ≤ dsc.length then
          let pl1 := (dsc.take (scanned.1 - 1)).drop read1
          if set + 1 = 3 then DscOut.ok source version pl1
          else parse_loop dsc f scanned.2 source version pl1 (set + 1) scanned.1
        else DscOut.slicePanic
      else parse_loop dsc f rest source version pl set read1

/-- `parse_dsc` (src/dpkg.rs 467-507) over the characters of the dsc file. -/
def parse_dsc (dsc : List Char) : DscOut :=
  parse_loop dsc (rust_lines dsc).length (rust_lines dsc) [] [] [] 0 0

/-- A sanity run: a well-formed dsc parses into its three fields. -/
example :
    parse_dsc "Source: foo\nVersion: 2\nPackage-List:\n foo deb admin optional arch=any\n".toList
      = DscOut.ok "foo".toList "2".toList
          " foo deb admin optional arch=any".toList := by
  decide

/-- The inner scan never lengthens the remaining line list. -/
theorem pl_scan_length (lines : List (List Char)) :
    ∀ read, (pl_scan lines read).2.length ≤ lines.length := by
  induction lines with
  | nil =>
    intro read
    simp [pl_scan]
  | cons l rest ih =>
    intro read
    by_cases h : l.head? = some ' '
    · rw [pl_scan, if_pos h]
      exact le_trans (ih _) (Nat.le_succ _)
    · rw [pl_scan, if_neg h]
      exact Nat.le_succ _

/-- Number of already-assigned fields. -/
def cnt3 (source version pl : List Char) : Nat :=
  (if source = [] then 0 else 1) + (if version = [] then 0 else 1)
    + (if pl = [] then 0 else 1)

/-- On exhausted lines the loop returns an ensure error whenever at least
one field is missing, which the invariant `cnt3 ≤ set ≤ 2` guarantees. -/
theorem parse_loop_nil_ne_final (dsc : List Char) (fuel : Nat)
    (source version pl : List Char) (set read : Nat)
    (hc : cnt3 source version pl ≤ set) (hs : set ≤ 2) :
    parse_loop dsc fuel [] source version pl set read ≠ DscOut.finalPanic := by
  simp only [parse_loop]
  by_cases h1 : source = []
  · simp [h1]
  · by_cases h2 : version = []
    · simp [h1, h2]
    · by_cases h3 : pl = []
      · simp [h1, h2, h3]
      · exfalso
        unfold cnt3 at hc
        rw [if_neg h1, if_neg h2, if_neg h3] at hc
        omega

/-- The `set` counter reaches 3 inside the loop whenever all three fields
have been assigned, so the final `panic!` statement is unreachable from any
state satisfying `cnt3 ≤ set ≤ 2`. -/
theorem parse_loop_no_final_panic (dsc : List Char) :
    ∀ (fuel : Nat) (lines : List (List Char)) (source version pl : List Char)
      (set read : Nat),
      cnt3 source version pl ≤ set → set ≤ 2 →
      parse_loop dsc fuel lines source version pl set read
        ≠ DscOut.finalPanic := by
  intro fuel
  induction fuel with
  | zero =>
    intro lines source version pl set read hc hs
    cases lines with
    | nil => exact parse_loop_nil_ne_final dsc 0 source version pl set read hc hs
    | cons l rest => simp [parse_loop]
  | succ f ih =>
    intro lines source version pl set read hc hs
    cases lines with
    | nil =>
      exact parse_loop_nil_ne_final dsc (f + 1) source version pl set read hc hs
    | cons l rest =>
      simp only [parse_loop]
      by_cases hb1 : source = [] ∧ sourceKey.isPrefixOf l = true
      · rw [if_pos hb1]
        by_cases hset : set + 1 = 3
        · rw [if_pos hset]
          simp
        · rw [if_neg hset]
          apply ih
          · unfold cnt3 at hc ⊢
            rw [if_pos hb1.1] at hc
            have hone : (if trim_chars (l.drop 7) = [] then 0 else 1) ≤ 1 := by
              split <;> omega
            omega
          · omega
      · rw [if_neg hb1]
        by_cases hb2 : version = [] ∧ versionKey.isPrefixOf l = true
        · rw [if_pos hb2]
          by_cases hset : set + 1 = 3
          · rw [if_pos hset]
            simp
          · rw [if_neg hset]
            apply ih
            · unfold cnt3 at hc ⊢
              rw [if_pos hb2.1] at hc
              have hone : (if trim_chars (l.drop 8) = [] then 0 else 1) ≤ 1 := by
                split <;> omega
              omega
            · omega
        · rw [if_neg hb2]
          by_cases hb3 : pl = [] ∧ packageListKey.isPrefixOf l = true
          · rw [if_pos hb3]
            by_cases hsl : read + l.length + 1 ≤ (pl_scan rest (read + l.length + 1)).1 - 1
                ∧ (pl_scan rest (read + l.length + 1)).1 - 1 ≤ dsc.length
            · rw [if_pos hsl]
              by_cases hset : set + 1 = 3
              · rw [if_pos hset]
                simp
              · rw [if_neg hset]
                apply ih
                · unfold cnt3 at hc ⊢
                  rw [if_pos hb3.1] at hc
                  have hone :
                      (if (dsc.take ((pl_scan rest (read + l.length + 1)).1 - 1)).drop
                          (read + l.length + 1) = [] then 0 else 1) ≤ 1 := by
                    split <;> omega
                  omega
                · omega
            · rw [if_neg hsl]
              simp
          · rw [if_neg hb3]
            exact ih rest source version pl set (read + l.length + 1) hc hs

/-- The fuel of `parse_dsc` — the line count — never runs out: every
iteration consumes at least one line. -/
theorem parse_loop_no_fuel_exhausted (dsc : List Char) :
    ∀ (fuel : Nat) (lines : List (List Char)) (source version pl : List Char)
      (set read : Nat), lines.length ≤ fuel →
      parse_loop dsc fuel lines source version pl set read
        ≠ DscOut.fuelExhausted := by
  intro fuel
  induction fuel with
  | zero =>
    intro lines source version pl set read hlen
    cases lines with
    | nil =>
      simp only [parse_loop]
      by_cases h1 : source = []
      · simp [h1]
      · by_cases h2 : version = []
        · simp [h1, h2]
        · by_cases h3 : pl = []
          · simp [h1, h2, h3]
          · simp [h1, h2, h3]
    | cons l rest => simp at hlen
  | succ f ih =>
    intro lines source version pl set read hlen
    cases lines with
    | nil =>
      simp only [parse_loop]
      by_cases h1 : source = []
      · simp [h1]
      · by_cases h2 : version = []
        · simp [h1, h2]
        · by_cases h3 : pl = []
          · simp [h1, h2, h3]
          · simp [h1, h2, h3]
    | cons l rest =>
      simp only [parse_loop]
      rw [List.length_cons] at hlen
      have hrest : rest.length ≤ f := Nat.le_of_succ_le_succ hlen
      by_cases hb1 : source = [] ∧ sourceKey.isPrefixOf l = true
      · rw [if_pos hb1]
        by_cases hset : set + 1 = 3
        · rw [if_pos hset]
          simp
        · rw [if_neg hset]
          exact ih rest _ _ _ _ _ hrest
      · rw [if_neg hb1]
        by_cases hb2 : version = [] ∧ versionKey.isPrefixOf l = true
        · rw [if_pos hb2]
          by_cases hset : set + 1 = 3
          · rw [if_pos hset]
            simp
          · rw [if_neg hset]
            exact ih rest _ _ _ _ _ hrest
        · rw [if_neg hb2]
          by_cases hb3 : pl = [] ∧ packageListKey.isPrefixOf l = true
          · rw [if_pos hb3]
            by_cases hsl : read + l.length + 1 ≤ (pl_scan rest (read + l.length + 1)).1 - 1
                ∧ (pl_scan rest (read + l.length + 1)).1 - 1 ≤ dsc.length
            · rw [if_pos hsl]
              by_cases hset : set + 1 = 3
              · rw [if_pos hset]
                simp
              · rw [if_neg hset]
                exact ih _ _ _ _ _ _ (le_trans (pl_scan_length rest _) hrest)
            · rw [if_neg hsl]
              simp
          · rw [if_neg hb3]
            exact ih rest _ _ _ _ _ hrest

/-- C10 counterexample: the claim says `parse_dsc` returns `Ok` or one of
its three ensure errors for every input.  On a dsc whose `Package-List:`
header has no continuation line, the slice `&dsc[start..read - 1]` has
`start = read`, so the function panics with an out-of-bounds slice instead
of returning. -/
theorem parse_dsc_slice_panic_concrete :
    parse_dsc "Source: a\nVersion: 1\nPackage-List:\n".toList
      = DscOut.slicePanic := by
  decide

/-- C10 amended: the final `panic!` statement after the ensures is indeed
unreachable — whenever all three fields have been assigned, `set` reaches 3
and the function returns inside the loop — but `parse_dsc` is not total on
arbitrary inputs: a `Package-List:` header whose block is empty triggers an
out-of-bounds slice panic; every run ends in `Ok`, an ensure error, or that
slice panic. -/
theorem parse_dsc_no_final_panic (dsc : List Char) :
    parse_dsc dsc ≠ DscOut.finalPanic ∧
      parse_dsc dsc ≠ DscOut.fuelExhausted := by
  unfold parse_dsc
  constructor
  · exact parse_loop_no_final_panic dsc _ _ [] [] [] 0 0 (by simp [cnt3]) (by omega)
  · exact parse_loop_no_fuel_exhausted dsc _ _ [] [] [] 0 0 (le_refl _)
